import Mathlib

/-
Verification of the job-management worker core: a shallow embedding of
`src/worker/metadata.py`, `src/worker/stores.py`, `src/worker/worker.py`
and `src/worker/run_job.py`.

Modelling conventions:
* Text payloads stored in the blob namespace are modelled at the JSON-value
  level: a stored text is either `Doc.malformed s` (a text on which
  `json.loads` raises, tagged with the raw text; the empty string is
  `Doc.malformed ""`) or `Doc.xjson j` for a serialized JSON value `j`.
  `json.dumps` is deterministic and `json.loads` is its inverse, so equality
  of `Doc` values coincides with equality of the serialized texts.
* JSON objects are insertion-ordered association lists, matching Python
  dict semantics (assignment replaces in place, `setdefault` appends).
* The namespace (`S3JobStore` at the key-value level) is an association
  list from string keys to `Doc` payloads; `put_text` is create-or-replace.
* The local filesystem is a pair of total functions: file contents per
  path and a directory predicate, with paths as component lists
  (`pathlib` splits on slashes and drops empty components).
* Wall-clock timestamps (`datetime.now`) and the random execution outcome of
  `run_job_once` are passed as explicit parameters (`now`, `succeeded`,
  `rands`), since they are environment inputs of the Python code.
-/

set_option autoImplicit false

namespace JobMgmt

/-- JSON values as produced by `json.loads` (objects keep insertion order). -/
inductive Json where
  | str (s : String)
  | num (n : Int)
  | jbool (b : Bool)
  | null
  | arr (elems : List Json)
  | obj (kvs : List (String × Json))

/-- A text payload stored in the namespace or on disk: either a text on which
`json.loads` raises (`malformed`, tagged with the raw text — the empty string
is `malformed ""`), or a serialized JSON value. -/
inductive Doc where
  | malformed (s : String)
  | xjson (j : Json)

/-- Python dict lookup `obj.get(key)` on an insertion-ordered object. -/
def JGet : List (String × Json) → String → Option Json
  | [], _ => none
  | (k, v) :: rest, key => if k = key then some v else JGet rest key

/-- Python dict assignment `obj[key] = val`: replace in place, else append. -/
def JSet : List (String × Json) → String → Json → List (String × Json)
  | [], key, val => [(key, val)]
  | (k, v) :: rest, key, val =>
    if k = key then (k, val) :: rest else (k, v) :: JSet rest key val

/-- Python `obj.setdefault(key, val)`: append only when the key is absent. -/
def JSetdefault (kvs : List (String × Json)) (key : String) (val : Json) :
    List (String × Json) :=
  match JGet kvs key with
  | some _ => kvs
  | none => kvs ++ [(key, val)]

/-- The claim record of `src/worker/metadata.py` (`claimed_at`/`worker_id`
are stored back verbatim by `parse_worker_metadata`, hence `Json`). -/
structure WorkerMetadata where
  status : String
  claimed_at : Json
  worker_id : Json

/-- `WorkerMetadata.in_progress`: stamps the supplied identity and the
current time (the explicit `now` parameter). -/
def WorkerMetadata.in_progress (worker_id now : String) : WorkerMetadata :=
  { status := "in-progress", claimed_at := Json.str now, worker_id := Json.str worker_id }

/-- `WorkerMetadata.to_json`: serialize with keys in declaration order. -/
def WorkerMetadata.to_json (md : WorkerMetadata) : Doc :=
  Doc.xjson (Json.obj
    [("status", Json.str md.status), ("claimed_at", md.claimed_at), ("worker_id", md.worker_id)])

/-- `parse_worker_metadata` of `src/worker/metadata.py`: `json.loads` the
text, read `status` and require it to be a recognized status string; any
exception (malformed text, non-object value) and any unrecognized status
yields `None`. -/
def parse_worker_metadata : Doc → Option WorkerMetadata
  | Doc.malformed _ => none
  | Doc.xjson (Json.obj kvs) =>
    match JGet kvs "status" with
    | some (Json.str st) =>
      if st = "in-progress" ∨ st = "successful" ∨ st = "failure" then
        some { status := st,
               claimed_at := (JGet kvs "claimed_at").getD (Json.str ""),
               worker_id := (JGet kvs "worker_id").getD (Json.str "") }
      else none
    | _ => none
  | Doc.xjson _ => none

/-- The namespace at the key-value level (`S3JobStore`): keys to payloads,
in key insertion order. -/
def Store := List (String × Doc)

/-- First matching binding for a key. -/
def Store.find : Store → String → Option Doc
  | [], _ => none
  | (k, v) :: rest, key => if k = key then some v else Store.find rest key

/-- `object_exists`: existence probe, no side effects. -/
def Store.object_exists (s : Store) (key : String) : Bool :=
  (s.find key).isSome

/-- `get_text`: the stored payload, or `none` when the key is absent. -/
def Store.get_text (s : Store) (key : String) : Option Doc :=
  s.find key

/-- `put_text`: unconditional create-or-replace of a whole object. -/
def Store.put_text : Store → String → Doc → Store
  | [], key, d => [(key, d)]
  | (k, v) :: rest, key, d =>
    if k = key then (k, d) :: rest else (k, v) :: Store.put_text rest key d

/-- The name component of a key before its first slash. -/
def firstSeg (k : String) : String :=
  ⟨k.data.takeWhile (fun c => c ≠ '/')⟩

/-- Whether a key contains a slash (i.e. lies under a "directory"). -/
def keyHasSlash (k : String) : Bool := k.data.contains '/'

/-- `list_job_ids` (S3 backend): the `CommonPrefixes` under delimiter "/",
i.e. the distinct first segments of the keys that contain a slash, with the
trailing slash dropped. Pagination order is abstracted as key order. -/
def Store.list_job_ids (s : Store) : List String :=
  (((s.map Prod.fst).filter keyHasSlash).map firstSeg).dedup

/-- Filesystem paths as component lists. -/
abbrev Path := List String

/-- A local filesystem: file contents per path, plus a directory predicate. -/
structure FS where
  files : Path → Option Doc
  dirs : Path → Bool

def FS.empty : FS := { files := fun _ => none, dirs := fun _ => false }

/-- `pathlib.Path.exists`: true for a file or a directory. -/
def FS.pathExists (fs : FS) (p : Path) : Bool :=
  (fs.files p).isSome || fs.dirs p

/-- `mkdir(parents=True, exist_ok=True)`: the path and all its ancestors
become directories. -/
def FS.mkdir_p (fs : FS) (p : Path) : FS :=
  { fs with dirs := fun q => q.isPrefixOf p || fs.dirs q }

/-- `write_text`: create or replace one file. -/
def FS.set_file (fs : FS) (p : Path) (d : Doc) : FS :=
  { fs with files := fun q => if q = p then some d else fs.files q }

/-- `shutil.rmtree`: remove the whole subtree rooted at `p`. -/
def FS.rmtree (fs : FS) (p : Path) : FS :=
  { files := fun q => if p.isPrefixOf q then none else fs.files q,
    dirs := fun q => if p.isPrefixOf q then false else fs.dirs q }

/-- `shutil.copytree src dst`: every entry of the `src` subtree appears at
the corresponding path under `dst`; entries under `dst` with no `src`
counterpart are left as they are (in `download_prefix` the destination has
just been removed, so the result is an exact mirror). -/
def FS.copytree (fs : FS) (src dst : Path) : FS :=
  { files := fun q =>
      if dst.isPrefixOf q && (fs.files (src ++ q.drop dst.length)).isSome
      then fs.files (src ++ q.drop dst.length) else fs.files q,
    dirs := fun q =>
      if dst.isPrefixOf q && fs.dirs (src ++ q.drop dst.length)
      then true else fs.dirs q }

/-- Split a character list on slashes. -/
def splitCh : List Char → List (List Char)
  | [] => [[]]
  | c :: rest =>
    if c = '/' then [] :: splitCh rest
    else (c :: (splitCh rest).headD []) :: (splitCh rest).tail

/-- `pathlib` path division: split a key on slashes into components,
dropping empty components. -/
def keyPath (k : String) : Path :=
  ((splitCh k.data).filter (fun seg => seg ≠ [])).map (fun seg => (⟨seg⟩ : String))

/-- One iteration of `S3JobStore.download_prefix` over a listed object:
keys starting with `pfx ++ "/"` are materialized under `dest_dir` at their
relative path (parent directories created); the key equal to the bare
prefix-slash is skipped. -/
def s3MatchStep (pfx : String) (dest_dir : Path) (fs : FS) (kv : String × Doc) : FS :=
  if (pfx.data ++ ['/']).isPrefixOf kv.1.data then
    let rel : List Char := kv.1.data.drop (pfx.data.length + 1)
    if rel = [] then fs
    else
      let local_path : Path := dest_dir ++ keyPath ⟨rel⟩
      (fs.mkdir_p local_path.dropLast).set_file local_path kv.2
  else fs

/-- `S3JobStore.download_prefix`: create `dest_dir`, then copy every object
whose key starts with `pfx ++ "/"` to its relative path under `dest_dir`. -/
def download_prefix_s3 (s : Store) (pfx : String) (fs : FS) (dest_dir : Path) : FS :=
  s.foldl (s3MatchStep pfx dest_dir) (fs.mkdir_p dest_dir)

/-- `LocalJobStore.download_prefix`: return unchanged when the source
subtree is absent; otherwise remove a pre-existing destination wholesale
and copy the source subtree. -/
def download_prefix_local (fs : FS) (root : Path) (pfx : String) (dest_dir : Path) : FS :=
  let src := root ++ keyPath pfx
  if fs.pathExists src = false then fs
  else
    let fs1 := if fs.pathExists dest_dir then fs.rmtree dest_dir else fs
    fs1.copytree src dest_dir

/-- `write_local_worker_metadata`: write the serialized record to a path. -/
def write_local_worker_metadata (fs : FS) (p : Path) (md : WorkerMetadata) : FS :=
  fs.set_file p md.to_json

def WORKER_META_NAME : String := "worker-metadata.json"

/-- `_worker_meta_key` of `src/worker/worker.py`. -/
def worker_meta_key (job_id : String) : String :=
  job_id ++ "/" ++ WORKER_META_NAME

/-- `_is_claimable` of `src/worker/worker.py`: true when no
`worker-metadata.json` exists; when it exists the parsed status is
inspected but both branches return `False` (the membership test still uses
the pre-rename status names "failed"/"completed", and is dead code). -/
def is_claimable (s : Store) (job_id : String) : Bool :=
  let key := worker_meta_key job_id
  if s.object_exists key = false then true
  else
    let text := s.get_text key
    match parse_worker_metadata (text.getD (Doc.malformed "")) with
    | some m =>
      if m.status = "in-progress" ∨ m.status = "failed" ∨ m.status = "completed"
      then false else false
    | none => false

/-- The loop body of `claim_and_pull_one` over the remaining job ids:
skip unclaimable jobs; on the first claimable one, write the in-progress
record (unconditional `put_text`), download the job folder, mirror the
record locally, and return the id. -/
def claim_and_pull_go (s : Store) (fs : FS) (work_root : Path) (worker_id now : String) :
    List String → Option String × Store × FS
  | [] => (none, s, fs)
  | job_id :: rest =>
    if is_claimable s job_id = false then
      claim_and_pull_go s fs work_root worker_id now rest
    else
      let md := WorkerMetadata.in_progress worker_id now
      let s1 := s.put_text (worker_meta_key job_id) md.to_json
      let dest := work_root ++ keyPath job_id
      let fs1 := download_prefix_s3 s1 job_id fs dest
      let fs2 := write_local_worker_metadata fs1 (dest ++ [WORKER_META_NAME]) md
      (some job_id, s1, fs2)

/-- `claim_and_pull_one` of `src/worker/worker.py`: create the work root
(with parents), then scan the listed job ids. -/
def claim_and_pull_one (s : Store) (fs : FS) (work_root : Path) (worker_id now : String) :
    Option String × Store × FS :=
  claim_and_pull_go s (fs.mkdir_p work_root) work_root worker_id now s.list_job_ids

def RESULTS_NAME : String := "results.json"

/-- `_results_key` of `src/worker/run_job.py`. -/
def results_key (job_id : String) : String :=
  job_id ++ "/" ++ RESULTS_NAME

/-- The mock results payload of `run_job_once` (`rands` stands for the
random numbers drawn on the success path). -/
def resultsPayload (succeeded : Bool) (rands : List Int) : Doc :=
  if succeeded then
    Doc.xjson (Json.obj
      [("summary", Json.str "Mock computation finished successfully."),
       ("random_numbers", Json.arr (rands.map Json.num)),
       ("notes", Json.str "Replace with real model outputs later.")])
  else
    Doc.xjson (Json.obj
      [("error_code", Json.str "E_RUN_001"),
       ("message", Json.str "Mock failure: job could not be read / could not be run."),
       ("hint", Json.str "This is simulated; replace with real error reporting later.")])

/-- The metadata finalization of `run_job_once`: `json.loads` the existing
text (absent or empty text gives an empty dict), set `status`, fill
`worker_id`/`claimed_at` only if missing; any exception (malformed text,
non-object JSON) falls back to a fresh in-progress record with its status
overwritten. Both fresh timestamps of the Python code are the call's `now`. -/
def finalize_metadata (existing : Option Doc) (status worker_id now : String) : Doc :=
  let fromObj := fun (kvs : List (String × Json)) =>
    Doc.xjson (Json.obj
      (JSetdefault (JSetdefault (JSet kvs "status" (Json.str status))
        "worker_id" (Json.str worker_id)) "claimed_at" (Json.str now)))
  let fallback :=
    Doc.xjson (Json.obj
      (JSet [("status", Json.str "in-progress"), ("claimed_at", Json.str now),
             ("worker_id", Json.str worker_id)] "status" (Json.str status)))
  match existing with
  | none => fromObj []
  | some (Doc.malformed s) => if s = "" then fromObj [] else fallback
  | some (Doc.xjson (Json.obj kvs)) => fromObj kvs
  | some (Doc.xjson _) => fallback

/-- `run_job_once` of `src/worker/run_job.py`: create the job dir, upload
`results.json` to the store and mirror it locally, then finalize
`worker-metadata.json` in the store and mirror it locally. The execution
outcome and its randomness are the parameters `succeeded`/`rands`. -/
def run_job_once (s : Store) (fs : FS) (work_root : Path) (job_id worker_id : String)
    (succeeded : Bool) (rands : List Int) (now : String) : Store × FS :=
  let job_dir := work_root ++ keyPath job_id
  let fs0 := fs.mkdir_p job_dir
  let results := resultsPayload succeeded rands
  let status := if succeeded then "successful" else "failure"
  let s1 := s.put_text (results_key job_id) results
  let fs1 := fs0.set_file (job_dir ++ [RESULTS_NAME]) results
  let md_json := finalize_metadata (s1.get_text (worker_meta_key job_id)) status worker_id now
  let s2 := s1.put_text (worker_meta_key job_id) md_json
  let fs2 := fs1.set_file (job_dir ++ [WORKER_META_NAME]) md_json
  (s2, fs2)

/-! Basic lemmas about the store and filesystem models. -/

theorem Store.find_put_self (s : Store) (k : String) (d : Doc) :
    (s.put_text k d).find k = some d := by
  induction s with
  | nil => simp [Store.put_text, Store.find]
  | cons kv rest ih =>
    obtain ⟨k0, v0⟩ := kv
    by_cases h0 : k0 = k
    · subst h0; simp [Store.put_text, Store.find]
    · simp [Store.put_text, Store.find, h0, ih]

theorem Store.find_put_ne (s : Store) (k : String) (d : Doc) (k' : String) (h : k' ≠ k) :
    (s.put_text k d).find k' = s.find k' := by
  induction s with
  | nil =>
    simp only [Store.put_text, Store.find]
    rw [if_neg (fun hh => h hh.symm)]
  | cons kv rest ih =>
    obtain ⟨k0, v0⟩ := kv
    by_cases h0 : k0 = k
    · subst h0
      simp only [Store.put_text, if_pos rfl, Store.find]
      rw [if_neg (fun hh => h hh.symm), if_neg (fun hh => h hh.symm)]
    · simp [Store.put_text, Store.find, h0, ih]

theorem FS.dirs_set_file (fs : FS) (p : Path) (d : Doc) (q : Path) :
    (fs.set_file p d).dirs q = fs.dirs q := rfl

theorem FS.dirs_mkdir_p_mono (fs : FS) (p q : Path) (h : fs.dirs q = true) :
    (fs.mkdir_p p).dirs q = true := by
  simp [FS.mkdir_p, h]

theorem FS.dirs_mkdir_p_self (fs : FS) (p q : Path) (h : q.isPrefixOf p = true) :
    (fs.mkdir_p p).dirs q = true := by
  simp [FS.mkdir_p, h]

theorem s3MatchStep_dirs_mono (pfx : String) (dest_dir : Path) (fs : FS)
    (kv : String × Doc) (q : Path) (h : fs.dirs q = true) :
    (s3MatchStep pfx dest_dir fs kv).dirs q = true := by
  unfold s3MatchStep
  split
  · dsimp only
    split
    · exact h
    · rw [FS.dirs_set_file]
      exact FS.dirs_mkdir_p_mono _ _ _ h
  · exact h

theorem download_prefix_s3_dirs_mono (l : List (String × Doc)) (pfx : String)
    (fs : FS) (dest_dir : Path) (q : Path) (h : fs.dirs q = true) :
    (List.foldl (s3MatchStep pfx dest_dir) fs l).dirs q = true := by
  induction l generalizing fs with
  | nil => exact h
  | cons kv rest ih => exact ih _ (s3MatchStep_dirs_mono _ _ _ _ _ h)

/-- The scan of `claim_and_pull_go` claims exactly the first claimable job
of the id list, with the store and local writes of the claimed branch. -/
theorem claim_and_pull_go_eq (s : Store) (fs : FS) (wr : Path) (wid now : String)
    (ids : List String) :
    claim_and_pull_go s fs wr wid now ids =
      match ids.find? (fun j => is_claimable s j) with
      | none => (none, s, fs)
      | some j =>
        let md := WorkerMetadata.in_progress wid now
        let s1 := s.put_text (worker_meta_key j) md.to_json
        let dest := wr ++ keyPath j
        (some j, s1,
          write_local_worker_metadata (download_prefix_s3 s1 j fs dest)
            (dest ++ [WORKER_META_NAME]) md) := by
  induction ids with
  | nil => rfl
  | cons j rest ih =>
    cases hc : is_claimable s j with
    | false =>
      rw [List.find?_cons_of_neg _ (by simp [hc])]
      simpa [claim_and_pull_go, hc] using ih
    | true =>
      rw [List.find?_cons_of_pos _ (by simp [hc])]
      simp [claim_and_pull_go, hc]

/-- When the metadata key exists, `is_claimable` is false: the parsed
status is irrelevant (both branches of the status test return false). -/
theorem is_claimable_eq_false_of_find_some (s : Store) (j : String) (d : Doc)
    (h : s.find (worker_meta_key j) = some d) :
    is_claimable s j = false := by
  unfold is_claimable
  simp only [Store.object_exists, h, Option.isSome_some]
  rw [if_neg (by decide : ¬ (true = false))]
  split
  · exact ite_self false
  · rfl

theorem is_claimable_eq_true_iff (s : Store) (j : String) :
    is_claimable s j = true ↔ s.find (worker_meta_key j) = none := by
  constructor
  · intro h
    cases hf : s.find (worker_meta_key j) with
    | none => rfl
    | some d => rw [is_claimable_eq_false_of_find_some s j d hf] at h; cases h
  · intro h
    unfold is_claimable
    simp [Store.object_exists, h]

/-- `claim_and_pull_one` in closed form: the scan claims exactly the first
claimable job of the listing (after creating the work root). -/
theorem claim_and_pull_one_eq (s : Store) (fs : FS) (wr : Path) (wid now : String) :
    claim_and_pull_one s fs wr wid now =
      match (s.list_job_ids).find? (fun j => is_claimable s j) with
      | none => (none, s, fs.mkdir_p wr)
      | some j =>
        let md := WorkerMetadata.in_progress wid now
        let s1 := s.put_text (worker_meta_key j) md.to_json
        let dest := wr ++ keyPath j
        (some j, s1,
          write_local_worker_metadata (download_prefix_s3 s1 j (fs.mkdir_p wr) dest)
            (dest ++ [WORKER_META_NAME]) md) :=
  claim_and_pull_go_eq s (fs.mkdir_p wr) wr wid now s.list_job_ids

/-- What a successful claim implies: the returned id is the first claimable
one, it was claimable, and the store and local mirror are the claim-branch
writes. -/
theorem claim_some_inv (s : Store) (fs : FS) (wr : Path) (wid now : String) (j : String)
    (h : (claim_and_pull_one s fs wr wid now).1 = some j) :
    (s.list_job_ids).find? (fun i => is_claimable s i) = some j ∧
    is_claimable s j = true ∧
    (claim_and_pull_one s fs wr wid now).2.1
      = s.put_text (worker_meta_key j) (WorkerMetadata.in_progress wid now).to_json ∧
    (claim_and_pull_one s fs wr wid now).2.2
      = write_local_worker_metadata
          (download_prefix_s3
            (s.put_text (worker_meta_key j) (WorkerMetadata.in_progress wid now).to_json)
            j (fs.mkdir_p wr) (wr ++ keyPath j))
          (wr ++ keyPath j ++ [WORKER_META_NAME]) (WorkerMetadata.in_progress wid now) := by
  rw [claim_and_pull_one_eq] at h
  cases hf : (s.list_job_ids).find? (fun i => is_claimable s i) with
  | none =>
    rw [hf] at h
    have h' : (none : Option String) = some j := h
    cases h'
  | some r =>
    rw [hf] at h
    have h' : (some r : Option String) = some j := h
    have hrj : r = j := Option.some.inj h'
    subst hrj
    have hr : is_claimable s r = true := by simpa using List.find?_some hf
    rw [claim_and_pull_one_eq]
    rw [hf]
    exact ⟨rfl, hr, rfl, rfl⟩

/-- A claim that returns "none available" leaves the store untouched. -/
theorem claim_none_inv (s : Store) (fs : FS) (wr : Path) (wid now : String)
    (h : (claim_and_pull_one s fs wr wid now).1 = none) :
    (claim_and_pull_one s fs wr wid now).2.1 = s := by
  rw [claim_and_pull_one_eq] at h
  rw [claim_and_pull_one_eq]
  cases hf : (s.list_job_ids).find? (fun i => is_claimable s i) with
  | none => rfl
  | some r =>
    rw [hf] at h
    have h' : (some r : Option String) = none := h
    cases h'

/-- Sample payloads for concrete witnesses. -/
def demoSuccessDoc : Doc :=
  Doc.xjson (Json.obj
    [("status", Json.str "successful"), ("claimed_at", Json.str "T0"),
     ("worker_id", Json.str "w0")])

def demoMalformedStore : Store :=
  [("job-1/worker-metadata.json", Doc.malformed "oops"),
   ("job-1/input.txt", Doc.malformed "data")]

def demoDoneStore : Store := [("job-7/worker-metadata.json", demoSuccessDoc)]

def demoFreshStore : Store := [("job-42/input.txt", Doc.malformed "data")]

/-- C2: for every store state and job id, `claim_and_pull_one` treats the
job as claimable iff its `worker-metadata.json` key is absent; whenever the
key exists — whatever its content, malformed included — the job is not
claimable and the scan leaves its metadata key exactly as it was. -/
theorem C2_claimable_iff_absent (s : Store) (j : String) :
    (is_claimable s j = true ↔ s.find (worker_meta_key j) = none)
    ∧ (∀ fs wr wid now, s.find (worker_meta_key j) ≠ none →
        ((claim_and_pull_one s fs wr wid now).2.1).find (worker_meta_key j)
          = s.find (worker_meta_key j)) := by
  refine ⟨is_claimable_eq_true_iff s j, ?_⟩
  intro fs wr wid now hne
  cases hres : (claim_and_pull_one s fs wr wid now).1 with
  | none => rw [claim_none_inv s fs wr wid now hres]
  | some r =>
    obtain ⟨-, hr, hstore, -⟩ := claim_some_inv s fs wr wid now r hres
    rw [hstore]
    apply Store.find_put_ne
    intro hkey
    rw [hkey] at hne
    exact hne ((is_claimable_eq_true_iff s r).1 hr)

theorem C2_witness :
    ((claim_and_pull_one demoMalformedStore FS.empty ["work"] "w1" "T1").2.1).find
        (worker_meta_key "job-1")
      = demoMalformedStore.find (worker_meta_key "job-1") :=
  (C2_claimable_iff_absent demoMalformedStore "job-1").2 FS.empty ["work"] "w1" "T1"
    (Option.some_ne_none (Doc.malformed "oops"))

/-- C6: `claim_and_pull_one` returns the id of the first job in scan order
on which it wins a claim (the first claimable one); when the full scan finds
no claimable job — in particular when every listed job's metadata key exists
— it returns `none`, an ordinary value rather than an error. -/
theorem C6_first_claimable (s : Store) (fs : FS) (wr : Path) (wid now : String) :
    (claim_and_pull_one s fs wr wid now).1 = (s.list_job_ids).find? (fun j => is_claimable s j)
    ∧ ((∀ j ∈ s.list_job_ids, is_claimable s j = false) →
        (claim_and_pull_one s fs wr wid now).1 = none) := by
  constructor
  · rw [claim_and_pull_one_eq]
    cases hf : (s.list_job_ids).find? (fun j => is_claimable s j) with
    | none => rfl
    | some r => rfl
  · intro hall
    rw [claim_and_pull_one_eq]
    have hnone : (s.list_job_ids).find? (fun j => is_claimable s j) = none := by
      rw [List.find?_eq_none]
      intro a ha
      simp [hall a ha]
    rw [hnone]

theorem C6_witness :
    (claim_and_pull_one demoDoneStore FS.empty ["work"] "w1" "T1").1 = none :=
  (C6_first_claimable demoDoneStore FS.empty ["work"] "w1" "T1").2 (by
    intro j hj
    rw [show Store.list_job_ids demoDoneStore = ["job-7"] from rfl] at hj
    rw [List.mem_singleton] at hj
    subst hj
    rfl)

/-- C9: a single `claim_and_pull_one` call writes at most one namespace key
— the `worker-metadata.json` key of the job id it returns — and leaves every
other key's value unchanged; when it returns `none` it writes no key at all. -/
theorem C9_at_most_one_write (s : Store) (fs : FS) (wr : Path) (wid now : String) :
    ((claim_and_pull_one s fs wr wid now).1 = none →
      (claim_and_pull_one s fs wr wid now).2.1 = s)
    ∧ (∀ r k, (claim_and_pull_one s fs wr wid now).1 = some r → k ≠ worker_meta_key r →
        ((claim_and_pull_one s fs wr wid now).2.1).find k = s.find k) := by
  refine ⟨claim_none_inv s fs wr wid now, ?_⟩
  intro r k hres hk
  obtain ⟨-, -, hstore, -⟩ := claim_some_inv s fs wr wid now r hres
  rw [hstore]
  exact Store.find_put_ne s (worker_meta_key r) _ k hk

theorem C9_witness :
    ((claim_and_pull_one demoFreshStore FS.empty ["work"] "w1" "T1").2.1).find "job-42/input.txt"
      = demoFreshStore.find "job-42/input.txt" :=
  (C9_at_most_one_write demoFreshStore FS.empty ["work"] "w1" "T1").2 "job-42" "job-42/input.txt"
    rfl (by decide)

/-- C5: after every successful claim returning `job_id`, the local mirror
file `workRoot/job_id/worker-metadata.json` holds exactly the in-progress
record the caller wrote to `job_id/worker-metadata.json` in the namespace at
claim time. -/
theorem C5_round_trip_mirror (s : Store) (fs : FS) (wr : Path) (wid now : String) (j : String)
    (h : (claim_and_pull_one s fs wr wid now).1 = some j) :
    ((claim_and_pull_one s fs wr wid now).2.2).files (wr ++ keyPath j ++ [WORKER_META_NAME])
      = some (WorkerMetadata.in_progress wid now).to_json
    ∧ ((claim_and_pull_one s fs wr wid now).2.1).find (worker_meta_key j)
      = some (WorkerMetadata.in_progress wid now).to_json := by
  obtain ⟨-, -, hstore, hfs⟩ := claim_some_inv s fs wr wid now j h
  constructor
  · rw [hfs]
    simp [write_local_worker_metadata, FS.set_file]
  · rw [hstore]
    exact Store.find_put_self s (worker_meta_key j) _

theorem C5_witness :
    ((claim_and_pull_one demoFreshStore FS.empty ["work"] "w1" "T1").2.2).files
        (["work"] ++ keyPath "job-42" ++ [WORKER_META_NAME])
      = some (WorkerMetadata.in_progress "w1" "T1").to_json :=
  (C5_round_trip_mirror demoFreshStore FS.empty ["work"] "w1" "T1" "job-42" rfl).1

/-- C10: every `claim_and_pull_one` call creates the local work root (with
its parents) whether or not a job is claimed. -/
theorem C10_work_root_created (s : Store) (fs : FS) (wr : Path) (wid now : String) :
    ∀ q : Path, q.isPrefixOf wr = true →
      ((claim_and_pull_one s fs wr wid now).2.2).dirs q = true := by
  intro q hq
  rw [claim_and_pull_one_eq]
  cases hf : (s.list_job_ids).find? (fun j => is_claimable s j) with
  | none =>
    exact FS.dirs_mkdir_p_self fs wr q hq
  | some r =>
    have base : ((fs.mkdir_p wr).mkdir_p (wr ++ keyPath r)).dirs q = true :=
      FS.dirs_mkdir_p_mono _ _ _ (FS.dirs_mkdir_p_self fs wr q hq)
    exact download_prefix_s3_dirs_mono
      (Store.put_text s (worker_meta_key r) (WorkerMetadata.in_progress wid now).to_json)
      r ((fs.mkdir_p wr).mkdir_p (wr ++ keyPath r)) (wr ++ keyPath r) q base

theorem C10_witness :
    ((claim_and_pull_one demoDoneStore FS.empty ["w", "r"] "w1" "T1").2.2).dirs ["w", "r"] = true :=
  C10_work_root_created demoDoneStore FS.empty ["w", "r"] "w1" "T1" ["w", "r"] (by decide)

/-- The spec's claimability-relevant reading of a stored metadata text:
`none` (unparsable) when the text is malformed JSON or its `status` field is
not one of the three recognized statuses; otherwise the carried status.
This is written from the spec's words, to be compared with the code's
`parse_worker_metadata`. Note that this unparsable `none` lives one level
above the store: `Store.get_text` returning `none` means the key is absent,
while parsing applies to a text that is present. -/
def specMetaStatus : Doc → Option String
  | Doc.malformed _ => none
  | Doc.xjson (Json.obj kvs) =>
    match JGet kvs "status" with
    | some (Json.str st) =>
      if st = "in-progress" ∨ st = "successful" ∨ st = "failure" then some st else none
    | _ => none
  | Doc.xjson _ => none

/-- C8: parsing a stored worker-metadata text yields the explicit
unparsable result exactly when the text is malformed JSON or its status
field is not one of in-progress/successful/failure; otherwise it yields a
record carrying that status. -/
theorem C8_parse_matches_spec (d : Doc) :
    (parse_worker_metadata d).map (fun md => md.status) = specMetaStatus d := by
  cases d with
  | malformed s => rfl
  | xjson j =>
    cases j with
    | str s => rfl
    | num n => rfl
    | jbool b => rfl
    | null => rfl
    | arr xs => rfl
    | obj kvs =>
      simp only [parse_worker_metadata, specMetaStatus]
      cases JGet kvs "status" with
      | none => rfl
      | some v =>
        cases v with
        | str st =>
          dsimp only
          by_cases hst : st = "in-progress" ∨ st = "successful" ∨ st = "failure"
          · rw [if_pos hst, if_pos hst]
            rfl
          · rw [if_neg hst, if_neg hst]
            rfl
        | num n => rfl
        | jbool b => rfl
        | null => rfl
        | arr xs => rfl
        | obj o => rfl

/-! C1: the claim race. The claim path in `claim_and_pull_one` is
"read (`_is_claimable`) then unconditional `put_text`"; there is no
conditional create in the code. Two workers driving the same namespace are
modelled at store-operation granularity: program counter 0 performs the
read-only claimability check, counter 1 performs the claim write (followed
by the download and return, which involve no further namespace write). -/

/-- Local state of one worker's `claim_and_pull_one` call over a namespace
that lists a single job id. -/
structure WorkerRun where
  pc : Nat
  claimable : Bool
  ret : Option String
  downloaded : Bool

def WorkerRun.start : WorkerRun :=
  { pc := 0, claimable := false, ret := none, downloaded := false }

/-- One atomic step of a worker's claim procedure against the shared store. -/
def workerStep (s : Store) (w : WorkerRun) (job_id wid now : String) : Store × WorkerRun :=
  match w.pc with
  | 0 => (s, { w with pc := 1, claimable := is_claimable s job_id })
  | 1 =>
    if w.claimable then
      let s1 := s.put_text (worker_meta_key job_id)
        (WorkerMetadata.in_progress wid now).to_json
      (s1, { w with pc := 2, ret := some job_id, downloaded := true })
    else (s, { w with pc := 2, ret := none })
  | _ => (s, w)

/-- Interleave two workers A and B under a schedule (`true` steps A). -/
def runSched (job_id aId bId now : String) :
    List Bool → Store → WorkerRun → WorkerRun → Store × WorkerRun × WorkerRun
  | [], s, a, b => (s, a, b)
  | c :: cs, s, a, b =>
    if c then
      let r := workerStep s a job_id aId now
      runSched job_id aId bId now cs r.1 r.2 b
    else
      let r := workerStep s b job_id bId now
      runSched job_id aId bId now cs r.1 a r.2

/-- A namespace holding one unclaimed job. -/
def raceStore : Store := [("job-1/input.txt", Doc.malformed "input")]

/-- The interleaving check-A, check-B, write-A, write-B. -/
def raceResult : Store × WorkerRun × WorkerRun :=
  runSched "job-1" "wA" "wB" "T" [true, false, true, false]
    raceStore WorkerRun.start WorkerRun.start

/-- C1 fails on the code: under the interleaving where both workers run the
claimability check before either writes, both calls succeed in creating the
job's `worker-metadata.json` record (both return the job id and both
proceed to download), and the second unconditional `put_text` silently
overwrites the first claim, leaving worker B's record. The claim's
conditional-create gate (`PutTextIfAbsent`) does not exist in the code. -/
theorem C1_double_claim_exhibit :
    raceResult.2.1.ret = some "job-1" ∧ raceResult.2.2.ret = some "job-1"
      ∧ raceResult.2.1.downloaded = true ∧ raceResult.2.2.downloaded = true
      ∧ raceResult.1.find (worker_meta_key "job-1")
          = some (WorkerMetadata.in_progress "wB" "T").to_json :=
  ⟨rfl, rfl, rfl, rfl, rfl⟩

/-! Lemmas on JSON-object updates and on the reserved keys, used by the
`run_job_once` analysis. -/

theorem data_append (a b : String) : (a ++ b).data = a.data ++ b.data := by
  cases a
  cases b
  rfl

theorem JGet_JSet_self (kvs : List (String × Json)) (k : String) (v : Json) :
    JGet (JSet kvs k v) k = some v := by
  induction kvs with
  | nil => simp [JSet, JGet]
  | cons kv rest ih =>
    obtain ⟨k0, v0⟩ := kv
    by_cases h0 : k0 = k
    · subst h0; simp [JSet, JGet]
    · simp [JSet, JGet, h0, ih]

theorem JGet_JSet_ne (kvs : List (String × Json)) (k : String) (v : Json) (k' : String)
    (h : k' ≠ k) : JGet (JSet kvs k v) k' = JGet kvs k' := by
  induction kvs with
  | nil =>
    simp only [JSet, JGet]
    rw [if_neg (fun hh => h hh.symm)]
  | cons kv rest ih =>
    obtain ⟨k0, v0⟩ := kv
    by_cases h0 : k0 = k
    · subst h0
      simp only [JSet, if_pos rfl, JGet]
      rw [if_neg (fun hh => h hh.symm), if_neg (fun hh => h hh.symm)]
    · simp [JSet, JGet, h0, ih]

theorem JGet_append_of_none (l1 l2 : List (String × Json)) (k : String)
    (h : JGet l1 k = none) : JGet (l1 ++ l2) k = JGet l2 k := by
  induction l1 with
  | nil => simp
  | cons kv rest ih =>
    obtain ⟨k0, v0⟩ := kv
    by_cases h0 : k0 = k
    · subst h0; simp [JGet] at h
    · simp only [JGet, if_neg h0] at h
      simp [JGet, h0, ih h]

theorem JGet_append_of_some (l1 l2 : List (String × Json)) (k : String) (v : Json)
    (h : JGet l1 k = some v) : JGet (l1 ++ l2) k = some v := by
  induction l1 with
  | nil => simp [JGet] at h
  | cons kv rest ih =>
    obtain ⟨k0, v0⟩ := kv
    by_cases h0 : k0 = k
    · subst h0
      simp only [JGet, if_pos rfl] at h
      simp only [List.cons_append, JGet, if_pos rfl]
      exact h
    · simp only [JGet, if_neg h0] at h
      simp only [List.cons_append, JGet, if_neg h0]
      exact ih h

theorem JSetdefault_of_some (kvs : List (String × Json)) (k : String) (v u : Json)
    (h : JGet kvs k = some u) : JSetdefault kvs k v = kvs := by
  simp [JSetdefault, h]

theorem JGet_JSetdefault_self_of_none (kvs : List (String × Json)) (k : String) (v : Json)
    (h : JGet kvs k = none) : JGet (JSetdefault kvs k v) k = some v := by
  unfold JSetdefault
  rw [h]
  rw [JGet_append_of_none kvs [(k, v)] k h]
  simp [JGet]

theorem JGet_JSetdefault_ne (kvs : List (String × Json)) (k : String) (v : Json) (k' : String)
    (h : k' ≠ k) : JGet (JSetdefault kvs k v) k' = JGet kvs k' := by
  unfold JSetdefault
  cases hg : JGet kvs k with
  | some u => rfl
  | none =>
    cases hg' : JGet kvs k' with
    | some u =>
      rw [JGet_append_of_some kvs [(k, v)] k' u hg']
    | none =>
      rw [JGet_append_of_none kvs [(k, v)] k' hg']
      simp only [JGet]
      rw [if_neg (fun hh => h hh.symm)]

theorem results_key_ne_worker_meta_key (j : String) : results_key j ≠ worker_meta_key j := by
  intro h
  have hd := congrArg String.data h
  unfold results_key worker_meta_key at hd
  rw [data_append, data_append] at hd
  have hne := List.append_cancel_left hd
  exact absurd hne (by decide)

theorem results_path_ne_meta_path (d : Path) :
    d ++ [RESULTS_NAME] ≠ d ++ [WORKER_META_NAME] := by
  intro h
  have hne := List.append_cancel_left h
  exact absurd hne (by decide)

theorem FS.files_set_file_self (fs : FS) (p : Path) (d : Doc) :
    (fs.set_file p d).files p = some d := by
  simp [FS.set_file]

theorem FS.files_set_file_ne (fs : FS) (p : Path) (d : Doc) (q : Path) (h : q ≠ p) :
    (fs.set_file p d).files q = fs.files q := by
  simp [FS.set_file, h]

theorem FS.files_mkdir_p (fs : FS) (p q : Path) : (fs.mkdir_p p).files q = fs.files q := rfl

/-- The store after `run_job_once`: the results write followed by the
metadata finalization, whose input is the pre-call metadata text (the
results write cannot alias the metadata key). -/
theorem run_job_once_store (s : Store) (fs : FS) (wr : Path) (j wid : String)
    (suc : Bool) (rands : List Int) (now : String) :
    (run_job_once s fs wr j wid suc rands now).1
      = (s.put_text (results_key j) (resultsPayload suc rands)).put_text (worker_meta_key j)
          (finalize_metadata (s.find (worker_meta_key j))
            (if suc then "successful" else "failure") wid now) := by
  unfold run_job_once
  dsimp only
  have hx : (Store.put_text s (results_key j) (resultsPayload suc rands)).get_text
      (worker_meta_key j) = s.find (worker_meta_key j) :=
    Store.find_put_ne s (results_key j) (resultsPayload suc rands) (worker_meta_key j)
      (fun hh => results_key_ne_worker_meta_key j hh.symm)
  rw [hx]

/-- The local mirror after `run_job_once`: directory creation, the results
file, then the metadata file. -/
theorem run_job_once_fs (s : Store) (fs : FS) (wr : Path) (j wid : String)
    (suc : Bool) (rands : List Int) (now : String) :
    (run_job_once s fs wr j wid suc rands now).2
      = ((fs.mkdir_p (wr ++ keyPath j)).set_file (wr ++ keyPath j ++ [RESULTS_NAME])
          (resultsPayload suc rands)).set_file (wr ++ keyPath j ++ [WORKER_META_NAME])
          (finalize_metadata (s.find (worker_meta_key j))
            (if suc then "successful" else "failure") wid now) := by
  unfold run_job_once
  dsimp only
  have hx : (Store.put_text s (results_key j) (resultsPayload suc rands)).get_text
      (worker_meta_key j) = s.find (worker_meta_key j) :=
    Store.find_put_ne s (results_key j) (resultsPayload suc rands) (worker_meta_key j)
      (fun hh => results_key_ne_worker_meta_key j hh.symm)
  rw [hx]

/-- The metadata finalization on a parseable JSON object: status is set to
the outcome, `claimed_at`/`worker_id` are kept when present and filled in
when missing, and every other field is untouched. -/
theorem finalize_metadata_obj (kvs : List (String × Json)) (st wid now : String) :
    ∃ m, finalize_metadata (some (Doc.xjson (Json.obj kvs))) st wid now
        = Doc.xjson (Json.obj m)
      ∧ JGet m "status" = some (Json.str st)
      ∧ (∀ v, JGet kvs "claimed_at" = some v → JGet m "claimed_at" = some v)
      ∧ (JGet kvs "claimed_at" = none → JGet m "claimed_at" = some (Json.str now))
      ∧ (∀ v, JGet kvs "worker_id" = some v → JGet m "worker_id" = some v)
      ∧ (JGet kvs "worker_id" = none → JGet m "worker_id" = some (Json.str wid))
      ∧ (∀ k, k ≠ "status" → k ≠ "worker_id" → k ≠ "claimed_at" →
          JGet m k = JGet kvs k) := by
  refine ⟨JSetdefault (JSetdefault (JSet kvs "status" (Json.str st)) "worker_id"
    (Json.str wid)) "claimed_at" (Json.str now), rfl, ?_, ?_, ?_, ?_, ?_, ?_⟩
  · rw [JGet_JSetdefault_ne _ _ _ _ (by decide), JGet_JSetdefault_ne _ _ _ _ (by decide)]
    exact JGet_JSet_self kvs "status" (Json.str st)
  · intro v hv
    have h1 : JGet (JSet kvs "status" (Json.str st)) "claimed_at" = some v := by
      rw [JGet_JSet_ne _ _ _ _ (by decide)]; exact hv
    have h2 : JGet (JSetdefault (JSet kvs "status" (Json.str st)) "worker_id"
        (Json.str wid)) "claimed_at" = some v := by
      rw [JGet_JSetdefault_ne _ _ _ _ (by decide)]; exact h1
    rw [JSetdefault_of_some _ _ _ _ h2]
    exact h2
  · intro hv
    have h1 : JGet (JSet kvs "status" (Json.str st)) "claimed_at" = none := by
      rw [JGet_JSet_ne _ _ _ _ (by decide)]; exact hv
    have h2 : JGet (JSetdefault (JSet kvs "status" (Json.str st)) "worker_id"
        (Json.str wid)) "claimed_at" = none := by
      rw [JGet_JSetdefault_ne _ _ _ _ (by decide)]; exact h1
    exact JGet_JSetdefault_self_of_none _ _ _ h2
  · intro v hv
    have h1 : JGet (JSet kvs "status" (Json.str st)) "worker_id" = some v := by
      rw [JGet_JSet_ne _ _ _ _ (by decide)]; exact hv
    rw [JGet_JSetdefault_ne _ _ _ _ (by decide), JSetdefault_of_some _ _ _ _ h1]
    exact h1
  · intro hv
    have h1 : JGet (JSet kvs "status" (Json.str st)) "worker_id" = none := by
      rw [JGet_JSet_ne _ _ _ _ (by decide)]; exact hv
    rw [JGet_JSetdefault_ne _ _ _ _ (by decide)]
    exact JGet_JSetdefault_self_of_none _ _ _ h1
  · intro k hks hkw hkc
    rw [JGet_JSetdefault_ne _ _ _ _ hkc, JGet_JSetdefault_ne _ _ _ _ hkw,
      JGet_JSet_ne _ _ _ _ hks]

/-- The metadata finalization when the existing text is absent or not a
JSON object: a minimal record under the current worker's identity. -/
theorem finalize_metadata_minimal (existing : Option Doc) (st wid now : String)
    (h : existing = none ∨ ∃ d, existing = some d ∧ ∀ kvs, d ≠ Doc.xjson (Json.obj kvs)) :
    ∃ m, finalize_metadata existing st wid now = Doc.xjson (Json.obj m)
      ∧ JGet m "status" = some (Json.str st)
      ∧ JGet m "worker_id" = some (Json.str wid)
      ∧ JGet m "claimed_at" = some (Json.str now) := by
  rcases h with h | ⟨d, hd, hne⟩
  · subst h
    exact ⟨[("status", Json.str st), ("worker_id", Json.str wid),
      ("claimed_at", Json.str now)], rfl, rfl, rfl, rfl⟩
  · subst hd
    cases d with
    | malformed s =>
      by_cases hs : s = ""
      · subst hs
        exact ⟨[("status", Json.str st), ("worker_id", Json.str wid),
          ("claimed_at", Json.str now)], rfl, rfl, rfl, rfl⟩
      · refine ⟨[("status", Json.str st), ("claimed_at", Json.str now),
          ("worker_id", Json.str wid)], ?_, rfl, rfl, rfl⟩
        unfold finalize_metadata
        dsimp only
        rw [if_neg hs]
        rfl
    | xjson jv =>
      cases jv with
      | obj kvs => exact absurd rfl (hne kvs)
      | str s2 => exact ⟨[("status", Json.str st), ("claimed_at", Json.str now),
          ("worker_id", Json.str wid)], rfl, rfl, rfl, rfl⟩
      | num n => exact ⟨[("status", Json.str st), ("claimed_at", Json.str now),
          ("worker_id", Json.str wid)], rfl, rfl, rfl, rfl⟩
      | jbool b => exact ⟨[("status", Json.str st), ("claimed_at", Json.str now),
          ("worker_id", Json.str wid)], rfl, rfl, rfl, rfl⟩
      | null => exact ⟨[("status", Json.str st), ("claimed_at", Json.str now),
          ("worker_id", Json.str wid)], rfl, rfl, rfl, rfl⟩
      | arr xs => exact ⟨[("status", Json.str st), ("claimed_at", Json.str now),
          ("worker_id", Json.str wid)], rfl, rfl, rfl, rfl⟩

/-- The C4 claim as stated: whenever a claimed job's existing metadata text
is parseable JSON, the record `run_job_once` writes is the original value
with only its `status` field changed (which presupposes a JSON object and
preserves every other field, `claimed_at` and `worker_id` included). -/
def C4Stated (s : Store) (fs : FS) (wr : Path) (j wid : String)
    (suc : Bool) (rands : List Int) (now : String) : Prop :=
  ∀ jv, s.find (worker_meta_key j) = some (Doc.xjson jv) →
    ∃ kvs, jv = Json.obj kvs ∧
      ((run_job_once s fs wr j wid suc rands now).1).find (worker_meta_key j)
        = some (Doc.xjson (Json.obj (JSet kvs "status"
            (Json.str (if suc then "successful" else "failure")))))

def c4StrayStore : Store := [("job-9/worker-metadata.json", Doc.xjson (Json.str "stray"))]

def c4PartialKvs : List (String × Json) :=
  [("status", Json.str "in-progress"), ("claimed_at", Json.str "T1")]

def c4PartialStore : Store :=
  [("job-9/worker-metadata.json", Doc.xjson (Json.obj c4PartialKvs))]

/-- C4 fails as stated on two concrete inputs: a metadata text that is
parseable JSON but not a JSON object is replaced by the fallback minimal
record rather than updated in place, and a JSON object lacking `worker_id`
gains a `worker_id` field, so more than the status field changes. -/
theorem C4_counterexample :
    ¬ C4Stated c4StrayStore FS.empty ["work"] "job-9" "wX" true [] "T9"
    ∧ ¬ C4Stated c4PartialStore FS.empty ["work"] "job-9" "wX" true [] "T9" := by
  constructor
  · intro h
    obtain ⟨kvs, hkvs, -⟩ := h (Json.str "stray") rfl
    exact Json.noConfusion hkvs
  · intro h
    obtain ⟨kvs, hkvs, hfinal⟩ := h (Json.obj c4PartialKvs) rfl
    have hk : c4PartialKvs = kvs := by
      injection hkvs with h1
    subst hk
    have hw := congrArg (fun o => match o with
      | some (Doc.xjson (Json.obj l)) => (JGet l "worker_id").isSome
      | _ => false) hfinal
    exact Bool.noConfusion hw

/-- C4 (amended): `run_job_once` writes `results.json` and a terminal
metadata record to both the namespace and the local mirror (the mirror's
metadata copy equals the namespace's); when the existing metadata text is a
parseable JSON object, the final record sets `status` to the outcome,
preserves `claimed_at` and `worker_id` whenever present (filling in the
current worker's identity and a fresh timestamp only when missing) and
leaves every other field untouched; when the record is absent or not a
JSON object, a minimal record under the current worker's identity is
written instead. -/
theorem C4_terminal_report (s : Store) (fs : FS) (wr : Path) (j wid : String)
    (suc : Bool) (rands : List Int) (now : String) :
    ((run_job_once s fs wr j wid suc rands now).1).find (results_key j)
        = some (resultsPayload suc rands)
    ∧ ((run_job_once s fs wr j wid suc rands now).2).files (wr ++ keyPath j ++ [RESULTS_NAME])
        = some (resultsPayload suc rands)
    ∧ ((run_job_once s fs wr j wid suc rands now).2).files (wr ++ keyPath j ++ [WORKER_META_NAME])
        = ((run_job_once s fs wr j wid suc rands now).1).find (worker_meta_key j)
    ∧ (∀ kvs, s.find (worker_meta_key j) = some (Doc.xjson (Json.obj kvs)) →
        ∃ m, ((run_job_once s fs wr j wid suc rands now).1).find (worker_meta_key j)
            = some (Doc.xjson (Json.obj m))
          ∧ JGet m "status" = some (Json.str (if suc then "successful" else "failure"))
          ∧ (∀ v, JGet kvs "claimed_at" = some v → JGet m "claimed_at" = some v)
          ∧ (JGet kvs "claimed_at" = none → JGet m "claimed_at" = some (Json.str now))
          ∧ (∀ v, JGet kvs "worker_id" = some v → JGet m "worker_id" = some v)
          ∧ (JGet kvs "worker_id" = none → JGet m "worker_id" = some (Json.str wid))
          ∧ (∀ k, k ≠ "status" → k ≠ "worker_id" → k ≠ "claimed_at" →
              JGet m k = JGet kvs k))
    ∧ ((s.find (worker_meta_key j) = none ∨
        (∃ d, s.find (worker_meta_key j) = some d ∧ ∀ kvs, d ≠ Doc.xjson (Json.obj kvs))) →
        ∃ m, ((run_job_once s fs wr j wid suc rands now).1).find (worker_meta_key j)
            = some (Doc.xjson (Json.obj m))
          ∧ JGet m "status" = some (Json.str (if suc then "successful" else "failure"))
          ∧ JGet m "worker_id" = some (Json.str wid)
          ∧ JGet m "claimed_at" = some (Json.str now)) := by
  refine ⟨?_, ?_, ?_, ?_, ?_⟩
  · rw [run_job_once_store]
    rw [Store.find_put_ne _ _ _ _ (results_key_ne_worker_meta_key j)]
    exact Store.find_put_self s (results_key j) _
  · rw [run_job_once_fs]
    rw [FS.files_set_file_ne _ _ _ _ (results_path_ne_meta_path (wr ++ keyPath j))]
    exact FS.files_set_file_self _ _ _
  · rw [run_job_once_fs, run_job_once_store]
    rw [FS.files_set_file_self, Store.find_put_self]
  · intro kvs hk
    rw [run_job_once_store, Store.find_put_self, hk]
    obtain ⟨m, hm, hrest⟩ :=
      finalize_metadata_obj kvs (if suc then "successful" else "failure") wid now
    exact ⟨m, by rw [hm], hrest⟩
  · intro hcase
    rw [run_job_once_store, Store.find_put_self]
    obtain ⟨m, hm, hrest⟩ := finalize_metadata_minimal (s.find (worker_meta_key j))
      (if suc then "successful" else "failure") wid now hcase
    exact ⟨m, by rw [hm], hrest⟩

def c4FullKvs : List (String × Json) :=
  [("status", Json.str "in-progress"), ("claimed_at", Json.str "T1"),
   ("worker_id", Json.str "wA")]

def c4FullStore : Store := [("job-9/worker-metadata.json", Doc.xjson (Json.obj c4FullKvs))]

theorem C4_witness :
    ∃ m, ((run_job_once c4FullStore FS.empty ["work"] "job-9" "wX" true [] "T9").1).find
        (worker_meta_key "job-9") = some (Doc.xjson (Json.obj m))
      ∧ JGet m "status" = some (Json.str (if true then "successful" else "failure"))
      ∧ (∀ v, JGet c4FullKvs "claimed_at" = some v → JGet m "claimed_at" = some v)
      ∧ (JGet c4FullKvs "claimed_at" = none → JGet m "claimed_at" = some (Json.str "T9"))
      ∧ (∀ v, JGet c4FullKvs "worker_id" = some v → JGet m "worker_id" = some v)
      ∧ (JGet c4FullKvs "worker_id" = none → JGet m "worker_id" = some (Json.str "wX"))
      ∧ (∀ k, k ≠ "status" → k ≠ "worker_id" → k ≠ "claimed_at" →
          JGet m k = JGet c4FullKvs k) :=
  (C4_terminal_report c4FullStore FS.empty ["work"] "job-9" "wX" true [] "T9").2.2.2.1
    c4FullKvs rfl

/-! C3: monotonicity of a terminal status along the core's normal path.
The normal path is an arbitrary interleaving of `claim_and_pull_one` calls
and `run_job_once` calls on the shared namespace, where every run of a job
is licensed by a prior successful claim of that job within the trace and
each claim licenses at most one run (the spec's "mutated exactly once more
... by the same worker"). Job ids contain no slash (spec section 3). -/

/-- Whether a string is free of slashes (the spec's invariant on job ids). -/
def slashFree (s : String) : Bool := s.data.all (fun c => c ≠ '/')

theorem firstSeg_slashFree (k : String) : slashFree (firstSeg k) = true := by
  unfold slashFree firstSeg
  rw [List.all_eq_true]
  intro c hc
  have hc' : c ∈ k.data.takeWhile (fun c => decide (c ≠ '/')) := hc
  exact List.mem_takeWhile_imp (p := fun c => decide (c ≠ '/')) hc'

theorem list_job_ids_slashFree (s : Store) (j : String) (h : j ∈ s.list_job_ids) :
    slashFree j = true := by
  unfold Store.list_job_ids at h
  have h1 := List.mem_dedup.1 h
  obtain ⟨k, -, hk⟩ := List.mem_map.1 h1
  rw [← hk]
  exact firstSeg_slashFree k

/-- Two keys of the shape `id ++ "/" ++ name` with slash-free ids agree
exactly when the ids and names both agree. -/
theorem append_slash_inj : ∀ (a u b v : List Char),
    a.all (fun c => c ≠ '/') = true → b.all (fun c => c ≠ '/') = true →
    a ++ '/' :: u = b ++ '/' :: v → a = b ∧ u = v
  | [], u, [], v, _, _, h => by
    simp only [List.nil_append] at h
    exact ⟨rfl, (List.cons.inj h).2⟩
  | [], u, c2 :: bs, v, _, hb, h => by
    simp only [List.nil_append, List.cons_append] at h
    have hc := (List.cons.inj h).1
    have hb2 : c2 ≠ '/' := by
      simp only [List.all_cons, Bool.and_eq_true] at hb
      simpa using hb.1
    exact absurd hc.symm hb2
  | c1 :: as, u, [], v, ha, _, h => by
    simp only [List.nil_append, List.cons_append] at h
    have hc := (List.cons.inj h).1
    have ha2 : c1 ≠ '/' := by
      simp only [List.all_cons, Bool.and_eq_true] at ha
      simpa using ha.1
    exact absurd hc ha2
  | c1 :: as, u, c2 :: bs, v, ha, hb, h => by
    simp only [List.cons_append] at h
    have hc := (List.cons.inj h).1
    have ht := (List.cons.inj h).2
    have ha' : as.all (fun c => c ≠ '/') = true := by
      simp only [List.all_cons, Bool.and_eq_true] at ha
      exact ha.2
    have hb' : bs.all (fun c => c ≠ '/') = true := by
      simp only [List.all_cons, Bool.and_eq_true] at hb
      exact hb.2
    obtain ⟨hab, huv⟩ := append_slash_inj as u bs v ha' hb' ht
    subst hc
    rw [hab]
    exact ⟨rfl, huv⟩

theorem worker_meta_key_data (j : String) :
    (worker_meta_key j).data = j.data ++ '/' :: WORKER_META_NAME.data := by
  unfold worker_meta_key
  rw [data_append, data_append]
  rw [List.append_assoc]
  rfl

theorem results_key_data (j : String) :
    (results_key j).data = j.data ++ '/' :: RESULTS_NAME.data := by
  unfold results_key
  rw [data_append, data_append]
  rw [List.append_assoc]
  rfl

theorem worker_meta_key_inj (a b : String) (ha : slashFree a = true)
    (hb : slashFree b = true) (h : worker_meta_key a = worker_meta_key b) : a = b := by
  have hd := congrArg String.data h
  rw [worker_meta_key_data, worker_meta_key_data] at hd
  obtain ⟨hab, -⟩ := append_slash_inj _ _ _ _ ha hb hd
  cases a
  cases b
  exact congrArg String.mk hab

theorem results_key_ne_worker_meta_key_of_slashFree (a b : String)
    (ha : slashFree a = true) (hb : slashFree b = true) :
    results_key a ≠ worker_meta_key b := by
  intro h
  have hd := congrArg String.data h
  rw [results_key_data, worker_meta_key_data] at hd
  obtain ⟨-, huv⟩ := append_slash_inj _ _ _ _ ha hb hd
  exact absurd huv (by decide)

/-- Shared system state along a normal-path trace: the namespace, the
local filesystem, and the outstanding run licenses (worker, claimed job). -/
structure SysState where
  store : Store
  fsys : FS
  lic : List (String × String)

/-- A normal-path event: a `claim_and_pull_one` call or a `run_job_once`
call under some worker identity (with its clock and execution outcome). -/
inductive Ev where
  | claim (wid now : String)
  | run (wid jid : String) (suc : Bool) (rands : List Int) (now : String)

def stepEv (wr : Path) (st : SysState) (e : Ev) : SysState :=
  match e with
  | Ev.claim wid now =>
    let r := claim_and_pull_one st.store st.fsys wr wid now
    { store := r.2.1, fsys := r.2.2,
      lic := match r.1 with
             | some j => (wid, j) :: st.lic
             | none => st.lic }
  | Ev.run wid jid suc rands now =>
    let r := run_job_once st.store st.fsys wr jid wid suc rands now
    { store := r.1, fsys := r.2, lic := st.lic.erase (wid, jid) }

/-- A run event is admissible only under an outstanding license. -/
def okEv (st : SysState) (e : Ev) : Bool :=
  match e with
  | Ev.claim _ _ => true
  | Ev.run wid jid _ _ _ => st.lic.contains (wid, jid)

def okTrace (wr : Path) : SysState → List Ev → Bool
  | _, [] => true
  | st, e :: es => okEv st e && okTrace wr (stepEv wr st e) es

def execTrace (wr : Path) : SysState → List Ev → SysState
  | st, [] => st
  | st, e :: es => execTrace wr (stepEv wr st e) es

/-- C3 invariant at a fixed job `j` whose metadata key holds `d`: the
record is untouched and no license on `j` is outstanding. -/
def C3Inv (j : String) (d : Doc) (st : SysState) : Prop :=
  st.store.find (worker_meta_key j) = some d
  ∧ ∀ p ∈ st.lic, p.2 ≠ j ∧ slashFree p.2 = true

theorem C3Inv_step (wr : Path) (j : String) (d : Doc) (hj : slashFree j = true)
    (st : SysState) (e : Ev) (hok : okEv st e = true) (hinv : C3Inv j d st) :
    C3Inv j d (stepEv wr st e) := by
  obtain ⟨hfind, hlic⟩ := hinv
  cases e with
  | claim wid now =>
    dsimp only [stepEv]
    cases hres : (claim_and_pull_one st.store st.fsys wr wid now).1 with
    | none =>
      refine ⟨?_, ?_⟩
      · rw [claim_none_inv _ _ _ _ _ hres]
        exact hfind
      · intro p hp
        exact hlic p hp
    | some r =>
      obtain ⟨hfr, hcl, hstore, -⟩ := claim_some_inv st.store st.fsys wr wid now r hres
      have hrn : st.store.find (worker_meta_key r) = none :=
        (is_claimable_eq_true_iff _ _).1 hcl
      have hne : worker_meta_key j ≠ worker_meta_key r := by
        intro hh
        rw [← hh, hfind] at hrn
        cases hrn
      refine ⟨?_, ?_⟩
      · rw [hstore, Store.find_put_ne _ _ _ _ hne]
        exact hfind
      · intro p hp
        rcases List.mem_cons.1 hp with hp1 | hp2
        · subst hp1
          refine ⟨?_, ?_⟩
          · intro hrj
            have hrj' : r = j := hrj
            rw [hrj', hfind] at hrn
            cases hrn
          · exact list_job_ids_slashFree st.store r
              (List.mem_of_find?_eq_some hfr)
        · exact hlic p hp2
  | run wid jid suc rands now =>
    dsimp only [stepEv]
    have hmem : (wid, jid) ∈ st.lic := by
      have hc : st.lic.contains (wid, jid) = true := hok
      have h2 := List.elem_eq_mem (wid, jid) st.lic
      unfold List.contains at hc
      rw [h2] at hc
      exact of_decide_eq_true hc
    obtain ⟨hjq, hsf⟩ := hlic (wid, jid) hmem
    refine ⟨?_, ?_⟩
    · rw [run_job_once_store]
      rw [Store.find_put_ne _ _ _ _ (fun hh =>
        hjq (worker_meta_key_inj j jid hj hsf hh).symm)]
      rw [Store.find_put_ne _ _ _ _ (fun hh =>
        results_key_ne_worker_meta_key_of_slashFree jid j hsf hj hh.symm)]
      exact hfind
    · intro p hp
      exact hlic p (List.mem_of_mem_erase hp)

theorem C3Inv_trace (wr : Path) (j : String) (d : Doc) (hj : slashFree j = true) :
    ∀ (evs : List Ev) (st : SysState), okTrace wr st evs = true → C3Inv j d st →
      C3Inv j d (execTrace wr st evs)
  | [], _, _, hinv => hinv
  | e :: es, st, hok, hinv => by
    have hok' := hok
    simp only [okTrace, Bool.and_eq_true] at hok'
    exact C3Inv_trace wr j d hj es (stepEv wr st e) hok'.2
      (C3Inv_step wr j d hj st e hok'.1 hinv)

/-- C3: once a job's metadata record parses to a terminal status, no
subsequent normal-path operation sequence — `claim_and_pull_one` calls on
the evolving store interleaved with `run_job_once` calls, each run
licensed by a prior successful claim of that job within the trace —
changes the stored record, and in particular its status. -/
theorem C3_monotonic_terminal (wr : Path) (s0 : Store) (fs0 : FS) (evs : List Ev)
    (j stv : String) (d : Doc) (hj : slashFree j = true)
    (_hterm : stv = "successful" ∨ stv = "failure")
    (hd : s0.find (worker_meta_key j) = some d)
    (hst : (parse_worker_metadata d).map (fun md => md.status) = some stv)
    (hok : okTrace wr ⟨s0, fs0, []⟩ evs = true) :
    ((execTrace wr ⟨s0, fs0, []⟩ evs).store.find (worker_meta_key j)) = some d
    ∧ (((execTrace wr ⟨s0, fs0, []⟩ evs).store.find (worker_meta_key j)).bind
        parse_worker_metadata).map (fun md => md.status) = some stv := by
  have hinv : C3Inv j d ⟨s0, fs0, []⟩ := ⟨hd, by intro p hp; cases hp⟩
  obtain ⟨hfind, -⟩ := C3Inv_trace wr j d hj evs ⟨s0, fs0, []⟩ hok hinv
  refine ⟨hfind, ?_⟩
  rw [hfind]
  simpa using hst

def c3Store : Store :=
  [("jobA/worker-metadata.json", demoSuccessDoc), ("jobB/input.txt", Doc.malformed "x")]

def c3Trace : List Ev :=
  [Ev.claim "w1" "T1", Ev.run "w1" "jobB" true [] "T2"]

theorem C3_witness :
    ((execTrace ["work"] ⟨c3Store, FS.empty, []⟩ c3Trace).store.find
        (worker_meta_key "jobA")) = some demoSuccessDoc
    ∧ (((execTrace ["work"] ⟨c3Store, FS.empty, []⟩ c3Trace).store.find
        (worker_meta_key "jobA")).bind parse_worker_metadata).map (fun md => md.status)
        = some "successful" :=
  C3_monotonic_terminal ["work"] c3Store FS.empty c3Trace "jobA" "successful" demoSuccessDoc
    (by decide) (Or.inl rfl) rfl rfl rfl

/-! C7: `download_prefix` on both backends. Keys map to destination paths
through `keyPath` (pathlib splitting); these lemmas make that mapping
injective on slash-separated keys without empty segments. -/

theorem headD_cons_tail (l : List (List Char)) (h : l ≠ []) : l.headD [] :: l.tail = l := by
  cases l with
  | nil => exact absurd rfl h
  | cons x xs => rfl

theorem splitCh_ne_nil : ∀ (l : List Char), splitCh l ≠ []
  | [] => by simp [splitCh]
  | c :: r => by
    unfold splitCh
    split
    · exact List.cons_ne_nil _ _
    · exact List.cons_ne_nil _ _

theorem splitCh_inj : ∀ (l1 l2 : List Char), splitCh l1 = splitCh l2 → l1 = l2
  | [], [], _ => rfl
  | [], c :: r, h => by
    unfold splitCh at h
    by_cases hc : c = '/'
    · rw [if_pos hc] at h
      have ht := (List.cons.inj h).2
      exact absurd ht.symm (splitCh_ne_nil r)
    · rw [if_neg hc] at h
      have hh := (List.cons.inj h).1
      simp at hh
  | c :: r, [], h => by
    unfold splitCh at h
    by_cases hc : c = '/'
    · rw [if_pos hc] at h
      have ht := (List.cons.inj h).2
      exact absurd ht (splitCh_ne_nil r)
    · rw [if_neg hc] at h
      have hh := (List.cons.inj h).1
      simp at hh
  | c1 :: r1, c2 :: r2, h => by
    unfold splitCh at h
    by_cases h1 : c1 = '/'
    · by_cases h2 : c2 = '/'
      · rw [if_pos h1, if_pos h2] at h
        have ht := (List.cons.inj h).2
        rw [h1, h2, splitCh_inj r1 r2 ht]
      · rw [if_pos h1, if_neg h2] at h
        have hh := (List.cons.inj h).1
        simp at hh
    · by_cases h2 : c2 = '/'
      · rw [if_neg h1, if_pos h2] at h
        have hh := (List.cons.inj h).1
        simp at hh
      · rw [if_neg h1, if_neg h2] at h
        have hh := (List.cons.inj h).1
        have htl := (List.cons.inj h).2
        have hc := (List.cons.inj hh).1
        have hhd := (List.cons.inj hh).2
        have hs : splitCh r1 = splitCh r2 := by
          rw [← headD_cons_tail (splitCh r1) (splitCh_ne_nil r1),
            ← headD_cons_tail (splitCh r2) (splitCh_ne_nil r2), hhd, htl]
        rw [hc, splitCh_inj r1 r2 hs]

/-- Whether a relative key has no empty slash-separated segment (no double
or trailing slash); on such keys the pathlib mapping is injective. -/
def noEmptySeg (l : List Char) : Bool := (splitCh l).all (fun seg => seg ≠ [])

theorem keyPath_inj (r1 r2 : List Char) (h1 : noEmptySeg r1 = true)
    (h2 : noEmptySeg r2 = true) (h : keyPath ⟨r1⟩ = keyPath ⟨r2⟩) : r1 = r2 := by
  unfold keyPath at h
  dsimp only at h
  have e1 : (splitCh r1).filter (fun seg => seg ≠ []) = splitCh r1 :=
    List.filter_eq_self.2 (fun a ha => (List.all_eq_true.1 h1) a ha)
  have e2 : (splitCh r2).filter (fun seg => seg ≠ []) = splitCh r2 :=
    List.filter_eq_self.2 (fun a ha => (List.all_eq_true.1 h2) a ha)
  rw [e1, e2] at h
  have hinj : Function.Injective (fun seg : List Char => (⟨seg⟩ : String)) := by
    intro x y hxy
    injection hxy
  exact splitCh_inj r1 r2 (List.map_injective_iff.2 hinj h)

/-! The local (filesystem) backend of `download_prefix`. -/

theorem rmtree_files_outside (fs : FS) (p q : Path) (h : p.isPrefixOf q = false) :
    (fs.rmtree p).files q = fs.files q := by
  unfold FS.rmtree
  dsimp only
  rw [h]
  rfl

theorem rmtree_files_inside (fs : FS) (p q : Path) (h : p.isPrefixOf q = true) :
    (fs.rmtree p).files q = none := by
  unfold FS.rmtree
  dsimp only
  rw [h]
  rfl

theorem rmtree_dirs_outside (fs : FS) (p q : Path) (h : p.isPrefixOf q = false) :
    (fs.rmtree p).dirs q = fs.dirs q := by
  unfold FS.rmtree
  dsimp only
  rw [h]
  rfl

theorem prefix_disjoint_subpath (dst src rel : Path)
    (hds : ¬ dst.isPrefixOf src = true) (hsd : ¬ src.isPrefixOf dst = true) :
    dst.isPrefixOf (src ++ rel) = false := by
  by_contra hcon
  rw [Bool.not_eq_false, List.isPrefixOf_iff_prefix] at hcon
  rcases Nat.le_total dst.length src.length with hle | hle
  · exact hds (List.isPrefixOf_iff_prefix.2
      (List.prefix_of_prefix_length_le hcon (List.prefix_append src rel) hle))
  · exact hsd (List.isPrefixOf_iff_prefix.2
      (List.prefix_of_prefix_length_le (List.prefix_append src rel) hcon hle))

/-- `LocalJobStore.download_prefix` when the source subtree is absent:
no effect at all (in particular the destination is not created). -/
theorem download_prefix_local_absent (fs : FS) (root : Path) (pfx : String) (dest_dir : Path)
    (h : fs.pathExists (root ++ keyPath pfx) = false) :
    download_prefix_local fs root pfx dest_dir = fs := by
  unfold download_prefix_local
  dsimp only
  rw [h]
  rfl

theorem copytree_files (fs : FS) (src dst : Path) (q : Path) :
    (fs.copytree src dst).files q
      = if dst.isPrefixOf q && (fs.files (src ++ q.drop dst.length)).isSome
        then fs.files (src ++ q.drop dst.length) else fs.files q := rfl

theorem copytree_dirs_dst (fs : FS) (src dst : Path) (h : fs.dirs src = true) :
    (fs.copytree src dst).dirs dst = true := by
  unfold FS.copytree
  dsimp only
  have h1 : dst.isPrefixOf dst = true := List.isPrefixOf_iff_prefix.2 (List.prefix_refl dst)
  rw [List.drop_length, List.append_nil, h1, h]
  rfl

/-- `shutil.copytree` after the destination subtree has been emptied: the
destination becomes an exact mirror of the source subtree and everything
else keeps its content. -/
theorem copytree_mirror (fs1 fs : FS) (src dst : Path)
    (h1 : ∀ rel, fs1.files (src ++ rel) = fs.files (src ++ rel))
    (h2 : ∀ q, dst.isPrefixOf q = true → fs1.files q = none)
    (h4 : ∀ q, dst.isPrefixOf q = false → fs1.files q = fs.files q)
    (h3 : fs1.dirs src = true) :
    (∀ q, (fs1.copytree src dst).files q
        = if dst.isPrefixOf q then fs.files (src ++ q.drop dst.length) else fs.files q)
    ∧ (fs1.copytree src dst).dirs dst = true := by
  constructor
  · intro q
    rw [copytree_files]
    by_cases hq : dst.isPrefixOf q = true
    · rw [hq, h1 (q.drop dst.length)]
      cases hval : fs.files (src ++ q.drop dst.length) with
      | some v => simp [hval]
      | none => simp [hval, h2 q hq]
    · have hq' : dst.isPrefixOf q = false := by
        cases hb : dst.isPrefixOf q
        · rfl
        · exact absurd hb hq
      rw [hq', h4 q hq']
      simp
  · exact copytree_dirs_dst fs1 src dst h3

/-- `LocalJobStore.download_prefix` when the source directory exists and is
disjoint from the destination: a pre-existing destination is replaced
wholesale, the destination subtree becomes an exact mirror of the source
subtree (no stale entries remain), everything outside the destination is
untouched, and the destination directory exists afterwards. When the
destination did not pre-exist, the namespace-style invariant that no file
lies beneath a non-existent directory stands in for the real filesystem. -/
theorem download_prefix_local_present (fs : FS) (root : Path) (pfx : String) (dest_dir : Path)
    (hsrc : fs.dirs (root ++ keyPath pfx) = true)
    (hds : ¬ dest_dir.isPrefixOf (root ++ keyPath pfx) = true)
    (hsd : ¬ (root ++ keyPath pfx).isPrefixOf dest_dir = true)
    (hempty : fs.pathExists dest_dir = true ∨
      (∀ q, dest_dir.isPrefixOf q = true → fs.files q = none)) :
    (∀ q, (download_prefix_local fs root pfx dest_dir).files q
        = if dest_dir.isPrefixOf q then fs.files (root ++ keyPath pfx ++ q.drop dest_dir.length)
          else fs.files q)
    ∧ (download_prefix_local fs root pfx dest_dir).dirs dest_dir = true := by
  have hex : fs.pathExists (root ++ keyPath pfx) = true := by
    unfold FS.pathExists
    rw [hsrc, Bool.or_true]
  have hsub : ∀ rel : Path, dest_dir.isPrefixOf (root ++ keyPath pfx ++ rel) = false :=
    fun rel => prefix_disjoint_subpath dest_dir (root ++ keyPath pfx) rel hds hsd
  have hdsf : dest_dir.isPrefixOf (root ++ keyPath pfx) = false := by
    cases hb : dest_dir.isPrefixOf (root ++ keyPath pfx)
    · rfl
    · exact absurd hb hds
  unfold download_prefix_local
  dsimp only
  rw [hex]
  rw [if_neg (by decide : ¬ ((true : Bool) = false))]
  by_cases hde : fs.pathExists dest_dir = true
  · rw [if_pos hde]
    refine copytree_mirror (fs.rmtree dest_dir) fs (root ++ keyPath pfx) dest_dir ?_ ?_ ?_ ?_
    · intro rel
      exact rmtree_files_outside fs dest_dir _ (hsub rel)
    · intro q hq
      exact rmtree_files_inside fs dest_dir q hq
    · intro q hq
      exact rmtree_files_outside fs dest_dir q hq
    · rw [rmtree_dirs_outside fs dest_dir _ hdsf]
      exact hsrc
  · rw [if_neg hde]
    have hemp : ∀ q, dest_dir.isPrefixOf q = true → fs.files q = none := by
      rcases hempty with h | h
      · exact absurd h hde
      · exact h
    exact copytree_mirror fs fs (root ++ keyPath pfx) dest_dir
      (fun rel => rfl) hemp (fun q hq => rfl) hsrc

/-! The S3 backend of `download_prefix`. -/

theorem string_ext (a b : String) (h : a.data = b.data) : a = b := by
  cases a
  cases b
  exact congrArg String.mk h

theorem eq_append_drop_of_isPrefixOf (P l : List Char) (h : P.isPrefixOf l = true) :
    l = P ++ l.drop P.length := by
  obtain ⟨t, ht⟩ := List.isPrefixOf_iff_prefix.1 h
  rw [← ht, List.drop_left]

theorem s3MatchStep_files_target (pfx : String) (dest : Path) (fs : FS) (kv : String × Doc)
    (hm : (pfx.data ++ ['/']).isPrefixOf kv.1.data = true)
    (hrel : kv.1.data.drop (pfx.data.length + 1) ≠ []) :
    (s3MatchStep pfx dest fs kv).files
        (dest ++ keyPath ⟨kv.1.data.drop (pfx.data.length + 1)⟩) = some kv.2 := by
  unfold s3MatchStep
  rw [if_pos hm]
  dsimp only
  rw [if_neg hrel]
  exact FS.files_set_file_self _ _ _

theorem s3MatchStep_files_other (pfx : String) (dest : Path) (fs : FS) (kv : String × Doc)
    (p : Path)
    (h : (pfx.data ++ ['/']).isPrefixOf kv.1.data = true →
      kv.1.data.drop (pfx.data.length + 1) = [] ∨
      dest ++ keyPath ⟨kv.1.data.drop (pfx.data.length + 1)⟩ ≠ p) :
    (s3MatchStep pfx dest fs kv).files p = fs.files p := by
  unfold s3MatchStep
  by_cases hm : (pfx.data ++ ['/']).isPrefixOf kv.1.data = true
  · rw [if_pos hm]
    dsimp only
    by_cases hnil : kv.1.data.drop (pfx.data.length + 1) = []
    · rw [if_pos hnil]
    · rw [if_neg hnil]
      rcases h hm with hnil2 | hne
      · exact absurd hnil2 hnil
      · rw [FS.files_set_file_ne _ _ _ _ (fun hh => hne hh.symm)]
        exact FS.files_mkdir_p _ _ _
  · rw [if_neg hm]

theorem s3_fold_files_frame : ∀ (l : List (String × Doc)) (pfx : String) (dest : Path)
    (fs : FS) (p : Path),
    (∀ kv ∈ l, (pfx.data ++ ['/']).isPrefixOf kv.1.data = true →
      kv.1.data.drop (pfx.data.length + 1) = [] ∨
      dest ++ keyPath ⟨kv.1.data.drop (pfx.data.length + 1)⟩ ≠ p) →
    (l.foldl (s3MatchStep pfx dest) fs).files p = fs.files p
  | [], _, _, _, _, _ => rfl
  | kv :: rest, pfx, dest, fs, p, h => by
    rw [List.foldl_cons]
    rw [s3_fold_files_frame rest pfx dest (s3MatchStep pfx dest fs kv) p
      (fun kv2 hkv2 => h kv2 (List.mem_cons_of_mem kv hkv2))]
    exact s3MatchStep_files_other pfx dest fs kv p (h kv (List.mem_cons_self kv rest))

theorem s3_fold_files_mem : ∀ (l : List (String × Doc)) (pfx : String) (dest : Path)
    (fs : FS) (k : String) (v : Doc),
    (k, v) ∈ l → (l.map Prod.fst).Nodup →
    (pfx.data ++ ['/']).isPrefixOf k.data = true →
    k.data.drop (pfx.data.length + 1) ≠ [] →
    (∀ kv ∈ l, (pfx.data ++ ['/']).isPrefixOf kv.1.data = true →
      noEmptySeg (kv.1.data.drop (pfx.data.length + 1)) = true) →
    (l.foldl (s3MatchStep pfx dest) fs).files
      (dest ++ keyPath ⟨k.data.drop (pfx.data.length + 1)⟩) = some v
  | [], _, _, _, _, _, hmem, _, _, _, _ => absurd hmem (List.not_mem_nil _)
  | kv0 :: rest, pfx, dest, fs, k, v, hmem, hnodup, hm, hrel, hseg => by
    rw [List.foldl_cons]
    rcases List.mem_cons.1 hmem with heq | hmem2
    · subst heq
      have hknot : k ∉ rest.map Prod.fst := by
        rw [List.map_cons, List.nodup_cons] at hnodup
        exact hnodup.1
      rw [s3_fold_files_frame rest pfx dest (s3MatchStep pfx dest fs (k, v)) _ ?hother]
      case hother =>
        intro kv2 hkv2 hm2
        by_cases hr2 : kv2.1.data.drop (pfx.data.length + 1) = []
        · exact Or.inl hr2
        · refine Or.inr ?_
          intro hpath
          have hkp := List.append_cancel_left hpath
          have hrr : kv2.1.data.drop (pfx.data.length + 1)
              = k.data.drop (pfx.data.length + 1) :=
            keyPath_inj _ _
              (hseg kv2 (List.mem_cons_of_mem (k, v) hkv2) hm2)
              (hseg (k, v) (List.mem_cons_self (k, v) rest) hm) hkp
          have hd2 := eq_append_drop_of_isPrefixOf (pfx.data ++ ['/']) kv2.1.data hm2
          have hdk := eq_append_drop_of_isPrefixOf (pfx.data ++ ['/']) k.data hm
          have hPlen : (pfx.data ++ ['/']).length = pfx.data.length + 1 := by simp
          rw [hPlen] at hd2 hdk
          have hdata : kv2.1.data = k.data := by
            rw [hd2, hrr, ← hdk]
          exact hknot (string_ext kv2.1 k hdata ▸ List.mem_map_of_mem Prod.fst hkv2)
      exact s3MatchStep_files_target pfx dest fs (k, v) hm hrel
    · have hnd : (rest.map Prod.fst).Nodup := by
        rw [List.map_cons, List.nodup_cons] at hnodup
        exact hnodup.2
      exact s3_fold_files_mem rest pfx dest (s3MatchStep pfx dest fs kv0) k v hmem2 hnd hm
        hrel (fun kv2 hkv2 => hseg kv2 (List.mem_cons_of_mem kv0 hkv2))

/-- `S3JobStore.download_prefix` creates the destination directory (with
its parents) even when no object matches the prefix. -/
theorem download_prefix_s3_dirs (s : Store) (pfx : String) (fs : FS) (dest : Path)
    (q : Path) (hq : q.isPrefixOf dest = true) :
    (download_prefix_s3 s pfx fs dest).dirs q = true := by
  unfold download_prefix_s3
  exact download_prefix_s3_dirs_mono s pfx (fs.mkdir_p dest) dest q
    (FS.dirs_mkdir_p_self fs dest q hq)

/-- `S3JobStore.download_prefix` copies every object whose key starts with
`pfx ++ "/"` to its relative path under the destination (for distinct keys
whose relative parts have no empty slash segment, the pathlib mapping is
injective, so no other object overwrites it). -/
theorem download_prefix_s3_copies (l : List (String × Doc)) (pfx : String) (fs : FS)
    (dest : Path) (k : String) (v : Doc) (hmem : (k, v) ∈ l)
    (hnodup : (l.map Prod.fst).Nodup)
    (hm : (pfx.data ++ ['/']).isPrefixOf k.data = true)
    (hrel : k.data.drop (pfx.data.length + 1) ≠ [])
    (hseg : ∀ kv ∈ l, (pfx.data ++ ['/']).isPrefixOf kv.1.data = true →
      noEmptySeg (kv.1.data.drop (pfx.data.length + 1)) = true) :
    (download_prefix_s3 l pfx fs dest).files
      (dest ++ keyPath ⟨k.data.drop (pfx.data.length + 1)⟩) = some v := by
  unfold download_prefix_s3
  exact s3_fold_files_mem l pfx dest (fs.mkdir_p dest) k v hmem hnodup hm hrel hseg

/-- A filesystem holding only an empty jobs root: no object matches the
prefix "j". -/
def c7EmptyFS : FS := FS.empty.mkdir_p ["jobs"]

/-- C7 fails as stated on the filesystem backend: with no object under the
prefix, `download_prefix` returns without creating the (absent)
destination directory, contradicting "must create destinationDir if
absent, including when no objects match the prefix". -/
theorem C7_counterexample :
    download_prefix_local c7EmptyFS ["jobs"] "j" ["work", "j"] = c7EmptyFS
    ∧ c7EmptyFS.pathExists ["work", "j"] = false
    ∧ (download_prefix_local c7EmptyFS ["jobs"] "j" ["work", "j"]).pathExists ["work", "j"]
        = false :=
  ⟨rfl, rfl, rfl⟩

/-- C7 (amended): `DownloadPrefix` copies every object whose key starts
with the prefix followed by a slash into the destination directory at its
relative path. The S3 backend creates the destination (with parents) even
when no object matches; the filesystem backend creates it only when the
source subtree exists — when no object matches the prefix it returns
without touching the filesystem, so an absent destination stays absent.
On the filesystem backend a pre-existing destination is replaced
wholesale: afterwards the destination subtree is an exact mirror of the
source subtree and nothing outside it changed. -/
theorem C7_download_prefix_spec (fs : FS) (root dest_dir : Path) (pfx : String)
    (l : List (String × Doc)) :
    (fs.pathExists (root ++ keyPath pfx) = false →
      download_prefix_local fs root pfx dest_dir = fs)
    ∧ (fs.dirs (root ++ keyPath pfx) = true →
       ¬ dest_dir.isPrefixOf (root ++ keyPath pfx) = true →
       ¬ (root ++ keyPath pfx).isPrefixOf dest_dir = true →
       (fs.pathExists dest_dir = true ∨
         (∀ q, dest_dir.isPrefixOf q = true → fs.files q = none)) →
       (∀ q, (download_prefix_local fs root pfx dest_dir).files q
           = if dest_dir.isPrefixOf q
             then fs.files (root ++ keyPath pfx ++ q.drop dest_dir.length)
             else fs.files q)
         ∧ (download_prefix_local fs root pfx dest_dir).dirs dest_dir = true)
    ∧ (∀ q, q.isPrefixOf dest_dir = true →
        (download_prefix_s3 l pfx fs dest_dir).dirs q = true)
    ∧ (∀ k v, (k, v) ∈ l → (l.map Prod.fst).Nodup →
       (pfx.data ++ ['/']).isPrefixOf k.data = true →
       k.data.drop (pfx.data.length + 1) ≠ [] →
       (∀ kv ∈ l, (pfx.data ++ ['/']).isPrefixOf kv.1.data = true →
         noEmptySeg (kv.1.data.drop (pfx.data.length + 1)) = true) →
       (download_prefix_s3 l pfx fs dest_dir).files
         (dest_dir ++ keyPath ⟨k.data.drop (pfx.data.length + 1)⟩) = some v) :=
  ⟨download_prefix_local_absent fs root pfx dest_dir,
   fun hsrc hds hsd hemp =>
     download_prefix_local_present fs root pfx dest_dir hsrc hds hsd hemp,
   fun q hq => download_prefix_s3_dirs l pfx fs dest_dir q hq,
   fun k v hmem hnodup hm hrel hseg =>
     download_prefix_s3_copies l pfx fs dest_dir k v hmem hnodup hm hrel hseg⟩

/-- A filesystem with one job input file under the root and a stale
pre-existing destination. -/
def c7FS : FS :=
  (((FS.empty.mkdir_p ["jobs", "j"]).set_file ["jobs", "j", "f.txt"]
    (Doc.malformed "data")).mkdir_p ["work", "j"]).set_file ["work", "j", "stale.txt"]
    (Doc.malformed "old")

def c7Store : Store := [("j/f.txt", Doc.malformed "data")]

theorem C7_witness :
    ((download_prefix_local c7FS ["jobs"] "j" ["work", "j"]).files ["work", "j", "f.txt"]
      = if (["work", "j"] : Path).isPrefixOf ["work", "j", "f.txt"]
        then c7FS.files (["jobs"] ++ keyPath "j"
          ++ (["work", "j", "f.txt"] : Path).drop (["work", "j"] : Path).length)
        else c7FS.files ["work", "j", "f.txt"])
    ∧ ((download_prefix_local c7FS ["jobs"] "j" ["work", "j"]).files ["work", "j", "stale.txt"]
      = if (["work", "j"] : Path).isPrefixOf ["work", "j", "stale.txt"]
        then c7FS.files (["jobs"] ++ keyPath "j"
          ++ (["work", "j", "stale.txt"] : Path).drop (["work", "j"] : Path).length)
        else c7FS.files ["work", "j", "stale.txt"])
    ∧ (download_prefix_local c7FS ["jobs"] "j" ["work", "j"]).dirs ["work", "j"] = true
    ∧ (download_prefix_s3 c7Store "j" FS.empty ["work", "j"]).files
        (["work", "j"] ++ keyPath ⟨("j/f.txt" : String).data.drop
          (("j" : String).data.length + 1)⟩) = some (Doc.malformed "data") := by
  have h := C7_download_prefix_spec c7FS ["jobs"] ["work", "j"] "j" c7Store
  have h2 := h.2.1 rfl (by decide) (by decide) (Or.inl rfl)
  refine ⟨h2.1 ["work", "j", "f.txt"], h2.1 ["work", "j", "stale.txt"], h2.2, ?_⟩
  have h4 := (C7_download_prefix_spec FS.empty ["jobs"] ["work", "j"] "j" c7Store).2.2.2
  refine h4 "j/f.txt" (Doc.malformed "data") (List.mem_singleton.2 rfl) ?_ rfl ?_ ?_
  · exact List.nodup_singleton _
  · decide
  · intro kv hkv hm2
    cases hkv with
    | head => rfl
    | tail _ h2x => cases h2x

end JobMgmt
